import Mathlib

/-!
Verification of the pixel-grid-to-terminal-string core of `stardew_print`
(`src/main.py`): the content-bounds trimmer `crop_to_content` and the
TrueColor encoder `convert_2D_color_array_to_truecolor_string`.

The RGBA grid (a numpy array of shape `(h, w, 4)` in the source) is
modelled as a list of rows, each row a list of `Pixel`; numpy's
rectangularity is an explicit hypothesis (`Rect`) where a theorem needs
it.  Python exceptions are modelled by `Option` results.
-/

/-- An RGBA pixel: four 8-bit unsigned channel values `(r, g, b, a)`.
Channels are `Nat`s; the 8-bit bound `≤ 255` is a hypothesis where needed. -/
structure Pixel where
  r : Nat
  g : Nat
  b : Nat
  a : Nat
deriving DecidableEq

/-- A grid of RGBA pixels: row-major list of rows. -/
abbrev PixelGrid := List (List Pixel)

/-- Embeds `get_ansi_color_code` of `src/main.py`: the ANSI escape code for a
given RGB color, as background when `background` is `true` (mode 48),
foreground otherwise (mode 38).  `toString` on `Nat` produces the same
decimal text as Python's f-string formatting of an integer. -/
def get_ansi_color_code (r g b : Nat) (background : Bool) : String :=
  let set_as_background := 48
  let set_as_foreground := 38
  let mode := if background then set_as_background else set_as_foreground
  "\x1b[" ++ toString mode ++ ";2;" ++ toString r ++ ";" ++ toString g ++
    ";" ++ toString b ++ "m"

/-- Embeds `get_ansi_reset_style_code` of `src/main.py`. -/
def get_ansi_reset_style_code : String := "\x1b[0m"

/-- The two-character glyph appended for a visible pixel
(local `visible_pixel_char` in `convert_2D_color_array_to_truecolor_string`). -/
def visible_pixel_char : String := "  "

/-- The two-character glyph appended for an invisible pixel
(local `invisible_pixel_char` in `convert_2D_color_array_to_truecolor_string`). -/
def invisible_pixel_char : String := "  "

/-- The per-pixel string computed in the loop body of
`convert_2D_color_array_to_truecolor_string` (the local `next_char`):
for a visible pixel (`a` truthy, i.e. nonzero) the background color code,
the glyph and the reset code; for an invisible pixel just the glyph. -/
def next_char (pixel : Pixel) : String :=
  if pixel.a ≠ 0 then
    let pixel_color := get_ansi_color_code pixel.r pixel.g pixel.b true
    pixel_color ++ visible_pixel_char ++ get_ansi_reset_style_code
  else invisible_pixel_char

/-- Embeds `convert_2D_color_array_to_truecolor_string` of `src/main.py`:
walk the grid row by row appending `next_char` per pixel and a newline per
row, then append the reset code and join.  The Python channel-count guard
(`shape[-1] != 4`) is vacuous here because `Pixel` carries exactly four
channels, so the function is total. -/
def convert_2D_color_array_to_truecolor_string (color_array : PixelGrid) : String :=
  let string_representation : List String :=
    color_array.foldl
      (fun acc row =>
        row.foldl (fun acc2 pixel => acc2 ++ [next_char pixel]) acc ++ ["\n"])
      []
  String.join string_representation ++ get_ansi_reset_style_code

/-- Per-row visibility mask: embeds `rows = np.any(alpha_channel != 0, axis=1)`
in `crop_to_content`. -/
def rowsMask (color_array : PixelGrid) : List Bool :=
  color_array.map (fun row => row.any (fun pixel => pixel.a != 0))

/-- Grid width, as numpy's `shape[1]` of a rectangular array
(the length of the first row). -/
def gridWidth (color_array : PixelGrid) : Nat := (color_array.headD []).length

/-- Per-column visibility mask: embeds `cols = np.any(alpha_channel != 0, axis=0)`
in `crop_to_content`. -/
def colsMask (color_array : PixelGrid) : List Bool :=
  (List.range (gridWidth color_array)).map
    (fun j => color_array.any (fun row => (row.getD j ⟨0, 0, 0, 0⟩).a != 0))

/-- Indices (in increasing order, offset by `k`) at which a mask is `true`:
helper for `whereIdx`. -/
def whereIdxFrom : Nat → List Bool → List Nat
  | _, [] => []
  | k, b :: bs => (if b then [k] else []) ++ whereIdxFrom (k + 1) bs

/-- Embeds `np.where(mask)[0]`: the indices at which `mask` is true,
in increasing order. -/
def whereIdx (mask : List Bool) : List Nat := whereIdxFrom 0 mask

/-- Embeds `crop_to_content` of `src/main.py`.  The source's
`np.where(rows)[0][[0, -1]]` (first and last true index) raises `IndexError`
on an all-false mask; failure is modelled by `none`.  On success the Python
slice `color_array[row_start : row_end + 1, col_start : col_end + 1]` is
`drop`/`take` on rows and on each row.  The `shape[-1] != 4` guard is vacuous
(`Pixel` always has four channels). -/
def crop_to_content (color_array : PixelGrid) : Option PixelGrid :=
  let rows := rowsMask color_array
  let cols := colsMask color_array
  match (whereIdx rows).head?, (whereIdx rows).getLast?,
        (whereIdx cols).head?, (whereIdx cols).getLast? with
  | some row_start, some row_end, some col_start, some col_end =>
      some (((color_array.drop row_start).take (row_end + 1 - row_start)).map
        (fun row => (row.drop col_start).take (col_end + 1 - col_start)))
  | _, _, _, _ => none

/-- The grid is rectangular of width `w`: the shape-`(h, w, 4)` invariant of
the numpy input. -/
def Rect (color_array : PixelGrid) (w : Nat) : Prop :=
  ∀ row ∈ color_array, row.length = w

instance (g : PixelGrid) (w : Nat) : Decidable (Rect g w) := by
  unfold Rect; infer_instance

/-- The grid contains at least one visible (non-zero alpha) pixel. -/
def HasVisible (color_array : PixelGrid) : Prop :=
  ∃ row ∈ color_array, ∃ pixel ∈ row, pixel.a ≠ 0

instance (g : PixelGrid) : Decidable (HasVisible g) := by
  unfold HasVisible; infer_instance

/-- Row `i` of the grid contains a visible (non-zero alpha) pixel. -/
def RowVis (g : PixelGrid) (i : Nat) : Prop :=
  ∃ row, g[i]? = some row ∧ ∃ p ∈ row, p.a ≠ 0

/-- Column `j` of the grid contains a visible (non-zero alpha) pixel. -/
def ColVis (g : PixelGrid) (j : Nat) : Prop :=
  ∃ row ∈ g, ∃ p, row[j]? = some p ∧ p.a ≠ 0

lemma mem_whereIdxFrom {bs : List Bool} {k i : Nat} :
    i ∈ whereIdxFrom k bs ↔ ∃ j, bs[j]? = some true ∧ i = k + j := by
  induction bs generalizing k with
  | nil => simp [whereIdxFrom]
  | cons b t ih =>
      simp only [whereIdxFrom, List.mem_append]
      constructor
      · rintro (h | h)
        · cases b with
          | false => simp at h
          | true =>
              simp at h
              exact ⟨0, by simp, by omega⟩
        · obtain ⟨j, hj, rfl⟩ := ih.mp h
          exact ⟨j + 1, by simpa using hj, by omega⟩
      · rintro ⟨j, hj, rfl⟩
        cases j with
        | zero =>
            simp at hj
            subst hj
            simp
        | succ j =>
            right
            simp only [List.getElem?_cons_succ] at hj
            exact ih.mpr ⟨j, hj, by omega⟩

lemma le_of_mem_whereIdxFrom {bs : List Bool} {k i : Nat}
    (h : i ∈ whereIdxFrom k bs) : k ≤ i := by
  obtain ⟨j, _, rfl⟩ := mem_whereIdxFrom.mp h
  omega

lemma pairwise_whereIdxFrom (bs : List Bool) (k : Nat) :
    (whereIdxFrom k bs).Pairwise (· < ·) := by
  induction bs generalizing k with
  | nil => simp [whereIdxFrom]
  | cons b t ih =>
      simp only [whereIdxFrom]
      cases b with
      | false => simpa using ih (k + 1)
      | true =>
          simp only [List.singleton_append]
          refine List.pairwise_cons.mpr ⟨?_, ih (k + 1)⟩
          intro y hy
          have := le_of_mem_whereIdxFrom hy
          omega

lemma mem_whereIdx {mask : List Bool} {i : Nat} :
    i ∈ whereIdx mask ↔ mask[i]? = some true := by
  unfold whereIdx
  rw [mem_whereIdxFrom]
  constructor
  · rintro ⟨j, hj, rfl⟩; simpa using hj
  · intro h; exact ⟨i, h, by omega⟩

lemma pairwise_whereIdx (mask : List Bool) : (whereIdx mask).Pairwise (· < ·) :=
  pairwise_whereIdxFrom mask 0

lemma lt_length_of_mem_whereIdx {mask : List Bool} {i : Nat}
    (h : i ∈ whereIdx mask) : i < mask.length := by
  have := mem_whereIdx.mp h
  exact (List.getElem?_eq_some.mp this).1

lemma head?_least {l : List Nat} (hp : l.Pairwise (· < ·)) {x : Nat}
    (hx : l.head? = some x) : x ∈ l ∧ ∀ y ∈ l, x ≤ y := by
  cases l with
  | nil => simp at hx
  | cons a t =>
      simp only [List.head?_cons, Option.some.injEq] at hx
      subst hx
      refine ⟨List.mem_cons_self _ _, ?_⟩
      intro y hy
      rcases List.mem_cons.mp hy with rfl | hy
      · exact le_rfl
      · exact ((List.pairwise_cons.mp hp).1 y hy).le

lemma getLast?_greatest {l : List Nat} (hp : l.Pairwise (· < ·)) {x : Nat}
    (hx : l.getLast? = some x) : x ∈ l ∧ ∀ y ∈ l, y ≤ x := by
  induction l with
  | nil => simp at hx
  | cons a t ih =>
      cases t with
      | nil =>
          simp only [List.getLast?_singleton, Option.some.injEq] at hx
          subst hx
          simp
      | cons b t' =>
          rw [List.getLast?_cons_cons] at hx
          have hp' := List.pairwise_cons.mp hp
          obtain ⟨hmem, hmax⟩ := ih hp'.2 hx
          refine ⟨List.mem_cons_of_mem _ hmem, ?_⟩
          intro y hy
          rcases List.mem_cons.mp hy with rfl | hy
          · exact (hp'.1 x hmem).le
          · exact hmax y hy

lemma head?_eq_of_least {l : List Nat} (hp : l.Pairwise (· < ·)) {x : Nat}
    (hmem : x ∈ l) (hle : ∀ y ∈ l, x ≤ y) : l.head? = some x := by
  cases hh : l.head? with
  | none =>
      rw [List.head?_eq_none_iff] at hh
      subst hh
      simp at hmem
  | some h =>
      obtain ⟨hmem2, hle2⟩ := head?_least hp hh
      have : h = x := le_antisymm (hle2 x hmem) (hle h hmem2)
      rw [this]

lemma getLast?_eq_of_greatest {l : List Nat} (hp : l.Pairwise (· < ·)) {x : Nat}
    (hmem : x ∈ l) (hge : ∀ y ∈ l, y ≤ x) : l.getLast? = some x := by
  cases hh : l.getLast? with
  | none =>
      rw [List.getLast?_eq_none_iff] at hh
      subst hh
      simp at hmem
  | some h =>
      obtain ⟨hmem2, hge2⟩ := getLast?_greatest hp hh
      have : h = x := le_antisymm (hge h hmem2) (hge2 x hmem)
      rw [this]

lemma rowsMask_getElem? (g : PixelGrid) (i : Nat) :
    (rowsMask g)[i]? = (g[i]?).map (fun row => row.any (fun pixel => pixel.a != 0)) := by
  simp [rowsMask]

lemma rowsMask_true_iff {g : PixelGrid} {i : Nat} :
    (rowsMask g)[i]? = some true ↔ RowVis g i := by
  rw [rowsMask_getElem?]
  constructor
  · intro h
    cases hg : g[i]? with
    | none => rw [hg] at h; simp at h
    | some row =>
        rw [hg] at h
        simp only [Option.map_some', Option.some.injEq] at h
        refine ⟨row, hg, ?_⟩
        obtain ⟨p, hp, hpa⟩ := List.any_eq_true.mp h
        exact ⟨p, hp, by simpa using hpa⟩
  · rintro ⟨row, hrow, p, hp, hpa⟩
    rw [hrow]
    simp only [Option.map_some', Option.some.injEq]
    exact List.any_eq_true.mpr ⟨p, hp, by simpa using hpa⟩

lemma colsMask_length (g : PixelGrid) : (colsMask g).length = gridWidth g := by
  simp [colsMask]

lemma colsMask_true_iff {g : PixelGrid} {j : Nat} :
    (colsMask g)[j]? = some true ↔ j < gridWidth g ∧ ColVis g j := by
  unfold colsMask
  constructor
  · intro h
    have hj : j < gridWidth g := by
      by_contra hcon
      rw [List.getElem?_eq_none] at h
      · simp at h
      · simpa using Nat.le_of_not_lt hcon
    refine ⟨hj, ?_⟩
    rw [List.getElem?_map, List.getElem?_range hj] at h
    simp only [Option.map_some', Option.some.injEq] at h
    obtain ⟨row, hrow, hb⟩ := List.any_eq_true.mp h
    have hane : (row.getD j ⟨0, 0, 0, 0⟩).a ≠ 0 := by simpa using hb
    cases hg : row[j]? with
    | none =>
        exfalso
        apply hane
        rw [List.getD_eq_getElem?_getD, hg]
        rfl
    | some p =>
        refine ⟨row, hrow, p, hg, ?_⟩
        rw [List.getD_eq_getElem?_getD, hg] at hane
        simpa using hane
  · rintro ⟨hj, row, hrow, p, hp, hpa⟩
    rw [List.getElem?_map, List.getElem?_range hj]
    simp only [Option.map_some', Option.some.injEq]
    refine List.any_eq_true.mpr ⟨row, hrow, ?_⟩
    rw [List.getD_eq_getElem?_getD, hp]
    simpa using hpa

lemma hasVisible_iff_rowVis {g : PixelGrid} : HasVisible g ↔ ∃ i, RowVis g i := by
  constructor
  · rintro ⟨row, hrow, p, hp, hpa⟩
    obtain ⟨i, hi⟩ := List.mem_iff_getElem?.mp hrow
    exact ⟨i, row, hi, p, hp, hpa⟩
  · rintro ⟨i, row, hi, p, hp, hpa⟩
    exact ⟨row, List.mem_iff_getElem?.mpr ⟨i, hi⟩, p, hp, hpa⟩

lemma hasVisible_colVis {g : PixelGrid} (hvis : HasVisible g) : ∃ j, ColVis g j := by
  obtain ⟨row, hrow, p, hp, hpa⟩ := hvis
  obtain ⟨j, hj⟩ := List.mem_iff_getElem?.mp hp
  exact ⟨j, row, hrow, p, hj, hpa⟩

lemma gridWidth_eq {g : PixelGrid} {w : Nat} (hrect : Rect g w) (hne : g ≠ []) :
    gridWidth g = w := by
  cases g with
  | nil => exact absurd rfl hne
  | cons r t => exact hrect r (List.mem_cons_self _ _)

lemma rowVis_lt_length {g : PixelGrid} {i : Nat} (h : RowVis g i) : i < g.length := by
  obtain ⟨row, hrow, -⟩ := h
  exact (List.getElem?_eq_some.mp hrow).1

lemma colVis_lt_width {g : PixelGrid} {w j : Nat} (hrect : Rect g w) (h : ColVis g j) :
    j < w := by
  obtain ⟨row, hrow, p, hp, -⟩ := h
  have := (List.getElem?_eq_some.mp hp).1
  rwa [hrect row hrow] at this

lemma colVis_lt_gridWidth {g : PixelGrid} {w j : Nat} (hrect : Rect g w)
    (h : ColVis g j) : j < gridWidth g := by
  have hne : g ≠ [] := by
    obtain ⟨row, hrow, -⟩ := h
    exact List.ne_nil_of_mem hrow
  rw [gridWidth_eq hrect hne]
  exact colVis_lt_width hrect h

lemma crop_eq_of {g : PixelGrid} {rs re cs ce : Nat}
    (h1 : (whereIdx (rowsMask g)).head? = some rs)
    (h2 : (whereIdx (rowsMask g)).getLast? = some re)
    (h3 : (whereIdx (colsMask g)).head? = some cs)
    (h4 : (whereIdx (colsMask g)).getLast? = some ce) :
    crop_to_content g =
      some (((g.drop rs).take (re + 1 - rs)).map
        (fun row => (row.drop cs).take (ce + 1 - cs))) := by
  simp only [crop_to_content]
  rw [h1, h2, h3, h4]

lemma crop_none_of_rows {g : PixelGrid}
    (h : whereIdx (rowsMask g) = []) : crop_to_content g = none := by
  simp only [crop_to_content]
  rw [h]
  rfl

/-- Characterization of a successful crop: the returned grid is the slice of
the input at the least/greatest visible row indices and the least/greatest
visible column indices, each axis computed independently over the whole
original grid. -/
lemma crop_spec {g : PixelGrid} {w : Nat} (hrect : Rect g w) (hvis : HasVisible g) :
    ∃ rs re cs ce,
      crop_to_content g =
        some (((g.drop rs).take (re + 1 - rs)).map
          (fun row => (row.drop cs).take (ce + 1 - cs))) ∧
      IsLeast {i | RowVis g i} rs ∧ IsGreatest {i | RowVis g i} re ∧
      IsLeast {j | ColVis g j} cs ∧ IsGreatest {j | ColVis g j} ce := by
  obtain ⟨i0, hi0⟩ := hasVisible_iff_rowVis.mp hvis
  obtain ⟨j0, hj0⟩ := hasVisible_colVis hvis
  have hmemr : i0 ∈ whereIdx (rowsMask g) :=
    mem_whereIdx.mpr (rowsMask_true_iff.mpr hi0)
  have hmemc : j0 ∈ whereIdx (colsMask g) :=
    mem_whereIdx.mpr (colsMask_true_iff.mpr ⟨colVis_lt_gridWidth hrect hj0, hj0⟩)
  have hner : whereIdx (rowsMask g) ≠ [] := List.ne_nil_of_mem hmemr
  have hnec : whereIdx (colsMask g) ≠ [] := List.ne_nil_of_mem hmemc
  cases h1 : (whereIdx (rowsMask g)).head? with
  | none => exact absurd (List.head?_eq_none_iff.mp h1) hner
  | some rs =>
  cases h2 : (whereIdx (rowsMask g)).getLast? with
  | none => exact absurd (List.getLast?_eq_none_iff.mp h2) hner
  | some re =>
  cases h3 : (whereIdx (colsMask g)).head? with
  | none => exact absurd (List.head?_eq_none_iff.mp h3) hnec
  | some cs =>
  cases h4 : (whereIdx (colsMask g)).getLast? with
  | none => exact absurd (List.getLast?_eq_none_iff.mp h4) hnec
  | some ce =>
  refine ⟨rs, re, cs, ce, crop_eq_of h1 h2 h3 h4, ?_, ?_, ?_, ?_⟩
  · obtain ⟨hmem, hle⟩ := head?_least (pairwise_whereIdx _) h1
    refine ⟨rowsMask_true_iff.mp (mem_whereIdx.mp hmem), ?_⟩
    intro y hy
    exact hle y (mem_whereIdx.mpr (rowsMask_true_iff.mpr hy))
  · obtain ⟨hmem, hge⟩ := getLast?_greatest (pairwise_whereIdx _) h2
    refine ⟨rowsMask_true_iff.mp (mem_whereIdx.mp hmem), ?_⟩
    intro y hy
    exact hge y (mem_whereIdx.mpr (rowsMask_true_iff.mpr hy))
  · obtain ⟨hmem, hle⟩ := head?_least (pairwise_whereIdx _) h3
    refine ⟨(colsMask_true_iff.mp (mem_whereIdx.mp hmem)).2, ?_⟩
    intro y hy
    exact hle y (mem_whereIdx.mpr (colsMask_true_iff.mpr
      ⟨colVis_lt_gridWidth hrect hy, hy⟩))
  · obtain ⟨hmem, hge⟩ := getLast?_greatest (pairwise_whereIdx _) h4
    refine ⟨(colsMask_true_iff.mp (mem_whereIdx.mp hmem)).2, ?_⟩
    intro y hy
    exact hge y (mem_whereIdx.mpr (colsMask_true_iff.mpr
      ⟨colVis_lt_gridWidth hrect hy, hy⟩))

lemma slice_getElem? {α : Type} {l : List α} {a n i : Nat} (h : i < n) :
    ((l.drop a).take n)[i]? = l[a + i]? := by
  rw [List.getElem?_take_of_lt h, List.getElem?_drop]

lemma rowsMask_length (g : PixelGrid) : (rowsMask g).length = g.length := by
  simp [rowsMask]

/-- Tightness of the crop: the output grid is nonempty, rectangular, and each
of its four borders (first/last row, first/last column) contains a visible
pixel. -/
lemma crop_tight {g : PixelGrid} {w : Nat} (hrect : Rect g w) (hvis : HasVisible g) :
    ∃ g', crop_to_content g = some g' ∧
      Rect g' (gridWidth g') ∧ 0 < g'.length ∧ 0 < gridWidth g' ∧
      RowVis g' 0 ∧ RowVis g' (g'.length - 1) ∧
      ColVis g' 0 ∧ ColVis g' (gridWidth g' - 1) := by
  obtain ⟨rs, re, cs, ce, heq, ⟨hrsV, hrsLB⟩, ⟨hreV, hreUB⟩, ⟨hcsV, hcsLB⟩,
    ⟨hceV, hceUB⟩⟩ := crop_spec hrect hvis
  have hrs_le_re : rs ≤ re := hreUB hrsV
  have hcs_le_ce : cs ≤ ce := hceUB hcsV
  have hre_lt : re < g.length := rowVis_lt_length hreV
  have hce_lt : ce < w := colVis_lt_width hrect hceV
  set f : List Pixel → List Pixel := fun row => (row.drop cs).take (ce + 1 - cs)
    with hf
  set g' : PixelGrid := ((g.drop rs).take (re + 1 - rs)).map f with hg'
  have hlen : g'.length = re + 1 - rs := by
    rw [hg', List.length_map, List.length_take, List.length_drop]
    omega
  have hpos : 0 < g'.length := by omega
  have hacc : ∀ i, i < re + 1 - rs → g'[i]? = (g[rs + i]?).map f := by
    intro i hi
    rw [hg', List.getElem?_map, slice_getElem? hi]
  have hrect' : Rect g' (ce + 1 - cs) := by
    intro row' hrow'
    rw [hg'] at hrow'
    obtain ⟨row, hrow, rfl⟩ := List.mem_map.mp hrow'
    have hrmem : row ∈ g := List.mem_of_mem_drop (List.mem_of_mem_take hrow)
    rw [hf]
    simp only [List.length_take, List.length_drop]
    rw [hrect row hrmem]
    omega
  have hne' : g' ≠ [] := List.ne_nil_of_length_pos hpos
  have hwidth : gridWidth g' = ce + 1 - cs := gridWidth_eq hrect' hne'
  have hwpos : 0 < gridWidth g' := by omega
  -- a visible pixel of original row `i` (rs ≤ i ≤ re) at original column `j`
  -- (cs ≤ j ≤ ce) is a visible pixel of the cropped grid
  have main : ∀ i j row p, g[i]? = some row → row[j]? = some p → p.a ≠ 0 →
      rs ≤ i → i ≤ re → cs ≤ j → j ≤ ce →
      ∃ row', g'[i - rs]? = some row' ∧ row'[j - cs]? = some p := by
    intro i j row p hrow hp hpa hrs hre hcs hce
    have h1 : g'[i - rs]? = some (f row) := by
      rw [hacc (i - rs) (by omega)]
      rw [(by omega : rs + (i - rs) = i), hrow]
      rfl
    refine ⟨f row, h1, ?_⟩
    rw [hf]
    simp only
    rw [slice_getElem? (by omega : j - cs < ce + 1 - cs),
      (by omega : cs + (j - cs) = j)]
    exact hp
  -- border rows
  obtain ⟨rowS, hrowS, pS, hpS, hpaS⟩ := hrsV
  obtain ⟨jS, hjS⟩ := List.mem_iff_getElem?.mp hpS
  have hcolS : ColVis g jS :=
    ⟨rowS, List.mem_iff_getElem?.mpr ⟨rs, hrowS⟩, pS, hjS, hpaS⟩
  obtain ⟨rowE, hrowE, pE, hpE, hpaE⟩ := hreV
  obtain ⟨jE, hjE⟩ := List.mem_iff_getElem?.mp hpE
  have hcolE : ColVis g jE :=
    ⟨rowE, List.mem_iff_getElem?.mpr ⟨re, hrowE⟩, pE, hjE, hpaE⟩
  -- border columns
  obtain ⟨rowC, hrowCmem, pC, hpC, hpaC⟩ := hcsV
  obtain ⟨iC, hiC⟩ := List.mem_iff_getElem?.mp hrowCmem
  have hrowC : RowVis g iC := ⟨rowC, hiC, pC, List.mem_iff_getElem?.mpr ⟨cs, hpC⟩, hpaC⟩
  obtain ⟨rowD, hrowDmem, pD, hpD, hpaD⟩ := hceV
  obtain ⟨iD, hiD⟩ := List.mem_iff_getElem?.mp hrowDmem
  have hrowD : RowVis g iD := ⟨rowD, hiD, pD, List.mem_iff_getElem?.mpr ⟨ce, hpD⟩, hpaD⟩
  refine ⟨g', by rw [heq, hg', hf], by rwa [hwidth], hpos, hwpos, ?_, ?_, ?_, ?_⟩
  · -- RowVis g' 0
    obtain ⟨row', h1, h2⟩ := main rs jS rowS pS hrowS hjS hpaS le_rfl hrs_le_re
      (hcsLB hcolS) (hceUB hcolS)
    have := Nat.sub_self rs
    exact ⟨row', by rwa [this] at h1, pS, List.mem_iff_getElem?.mpr ⟨jS - cs, h2⟩, hpaS⟩
  · -- RowVis g' (g'.length - 1)
    obtain ⟨row', h1, h2⟩ := main re jE rowE pE hrowE hjE hpaE hrs_le_re le_rfl
      (hcsLB hcolE) (hceUB hcolE)
    have hlast : g'.length - 1 = re - rs := by omega
    exact ⟨row', by rwa [hlast], pE, List.mem_iff_getElem?.mpr ⟨jE - cs, h2⟩, hpaE⟩
  · -- ColVis g' 0
    obtain ⟨row', h1, h2⟩ := main iC cs rowC pC hiC hpC hpaC (hrsLB hrowC)
      (hreUB hrowC) le_rfl hcs_le_ce
    have := Nat.sub_self cs
    exact ⟨row', List.mem_iff_getElem?.mpr ⟨iC - rs, h1⟩, pC, by rwa [this] at h2, hpaC⟩
  · -- ColVis g' (gridWidth g' - 1)
    obtain ⟨row', h1, h2⟩ := main iD ce rowD pD hiD hpD hpaD (hrsLB hrowD)
      (hreUB hrowD) hcs_le_ce le_rfl
    have hlast : gridWidth g' - 1 = ce - cs := by omega
    exact ⟨row', List.mem_iff_getElem?.mpr ⟨iD - rs, h1⟩, pD, by rwa [hlast], hpaD⟩

/-- Cropping the crop changes nothing: the borders of a cropped grid are
already tight, so the second crop slices out the whole grid. -/
lemma crop_idem_some {g : PixelGrid} {w : Nat} (hrect : Rect g w) (hvis : HasVisible g) :
    ∃ g', crop_to_content g = some g' ∧ crop_to_content g' = some g' := by
  obtain ⟨g', heq, hrect', hpos, hwpos, hr0, hrl, hc0, hcl⟩ := crop_tight hrect hvis
  refine ⟨g', heq, ?_⟩
  have h1 : (whereIdx (rowsMask g')).head? = some 0 :=
    head?_eq_of_least (pairwise_whereIdx _)
      (mem_whereIdx.mpr (rowsMask_true_iff.mpr hr0)) (fun y _ => Nat.zero_le y)
  have h2 : (whereIdx (rowsMask g')).getLast? = some (g'.length - 1) :=
    getLast?_eq_of_greatest (pairwise_whereIdx _)
      (mem_whereIdx.mpr (rowsMask_true_iff.mpr hrl))
      (fun y hy => by
        have := lt_length_of_mem_whereIdx hy
        rw [rowsMask_length] at this
        omega)
  have h3 : (whereIdx (colsMask g')).head? = some 0 :=
    head?_eq_of_least (pairwise_whereIdx _)
      (mem_whereIdx.mpr (colsMask_true_iff.mpr ⟨hwpos, hc0⟩))
      (fun y _ => Nat.zero_le y)
  have h4 : (whereIdx (colsMask g')).getLast? = some (gridWidth g' - 1) :=
    getLast?_eq_of_greatest (pairwise_whereIdx _)
      (mem_whereIdx.mpr (colsMask_true_iff.mpr ⟨by omega, hcl⟩))
      (fun y hy => by
        have := lt_length_of_mem_whereIdx hy
        rw [colsMask_length] at this
        omega)
  rw [crop_eq_of h1 h2 h3 h4]
  congr 1
  have hx : g'.length - 1 + 1 - 0 = g'.length := by omega
  rw [List.drop_zero, hx, List.take_length]
  have hrows : ∀ row ∈ g', (row.drop 0).take (gridWidth g' - 1 + 1 - 0) = row := by
    intro row hrow
    have hy : gridWidth g' - 1 + 1 - 0 = gridWidth g' := by omega
    rw [List.drop_zero, hy, ← hrect' row hrow, List.take_length]
  rw [List.map_congr_left hrows]
  simp

/-- C4: for every rectangular grid, the trimmer `crop_to_content` fails
(returns `none`, the model of the `IndexError` that the empty `np.where`
indexing raises; the spec names this failure `EmptyContentError`) exactly
when no pixel of the grid has non-zero alpha — so it never fails when at
least one pixel is visible. -/
theorem claim_C4 (g : PixelGrid) (w : Nat) (hrect : Rect g w) :
    crop_to_content g = none ↔ ¬ HasVisible g := by
  constructor
  · intro h hvis
    obtain ⟨rs, re, cs, ce, heq, -⟩ := crop_spec hrect hvis
    rw [heq] at h
    exact Option.noConfusion h
  · intro hvis
    apply crop_none_of_rows
    rw [List.eq_nil_iff_forall_not_mem]
    intro i hi
    exact hvis (hasVisible_iff_rowVis.mpr
      ⟨i, rowsMask_true_iff.mp (mem_whereIdx.mp hi)⟩)

/-- Witness for C4 at the 1×2 all-transparent grid. -/
theorem claim_C4_witness :
    Rect [[⟨5, 6, 7, 0⟩, ⟨1, 2, 3, 0⟩]] 2 ∧
      (crop_to_content [[⟨5, 6, 7, 0⟩, ⟨1, 2, 3, 0⟩]] = none ↔
        ¬ HasVisible [[⟨5, 6, 7, 0⟩, ⟨1, 2, 3, 0⟩]]) :=
  ⟨by decide, claim_C4 [[⟨5, 6, 7, 0⟩, ⟨1, 2, 3, 0⟩]] 2 (by decide)⟩

/-- C5: for every rectangular grid with at least one visible pixel, the
trimmer returns exactly the sub-grid selecting rows `row_start..=row_end` and
columns `col_start..=col_end`, where `row_start`/`row_end` are the least and
greatest row indices of the original grid containing a visible pixel and
`col_start`/`col_end` the least and greatest such column indices, each axis
computed independently over the whole original grid. -/
theorem claim_C5 (g : PixelGrid) (w : Nat) (hrect : Rect g w) (hvis : HasVisible g) :
    ∃ row_start row_end col_start col_end,
      crop_to_content g =
        some (((g.drop row_start).take (row_end + 1 - row_start)).map
          (fun row => (row.drop col_start).take (col_end + 1 - col_start))) ∧
      IsLeast {i | RowVis g i} row_start ∧ IsGreatest {i | RowVis g i} row_end ∧
      IsLeast {j | ColVis g j} col_start ∧ IsGreatest {j | ColVis g j} col_end :=
  crop_spec hrect hvis

/-- Witness for C5 at a 2×2 grid whose only visible pixel sits at row 1,
column 0. -/
theorem claim_C5_witness :
    Rect [[⟨0, 0, 0, 0⟩, ⟨0, 0, 0, 0⟩], [⟨9, 9, 9, 255⟩, ⟨0, 0, 0, 0⟩]] 2 ∧
      HasVisible [[⟨0, 0, 0, 0⟩, ⟨0, 0, 0, 0⟩], [⟨9, 9, 9, 255⟩, ⟨0, 0, 0, 0⟩]] ∧
      (∃ row_start row_end col_start col_end,
        crop_to_content [[⟨0, 0, 0, 0⟩, ⟨0, 0, 0, 0⟩], [⟨9, 9, 9, 255⟩, ⟨0, 0, 0, 0⟩]] =
          some ((([[⟨0, 0, 0, 0⟩, ⟨0, 0, 0, 0⟩],
            [⟨9, 9, 9, 255⟩, ⟨0, 0, 0, 0⟩]].drop row_start).take
              (row_end + 1 - row_start)).map
            (fun row => (row.drop col_start).take (col_end + 1 - col_start))) ∧
        IsLeast {i | RowVis [[⟨0, 0, 0, 0⟩, ⟨0, 0, 0, 0⟩],
          [⟨9, 9, 9, 255⟩, ⟨0, 0, 0, 0⟩]] i} row_start ∧
        IsGreatest {i | RowVis [[⟨0, 0, 0, 0⟩, ⟨0, 0, 0, 0⟩],
          [⟨9, 9, 9, 255⟩, ⟨0, 0, 0, 0⟩]] i} row_end ∧
        IsLeast {j | ColVis [[⟨0, 0, 0, 0⟩, ⟨0, 0, 0, 0⟩],
          [⟨9, 9, 9, 255⟩, ⟨0, 0, 0, 0⟩]] j} col_start ∧
        IsGreatest {j | ColVis [[⟨0, 0, 0, 0⟩, ⟨0, 0, 0, 0⟩],
          [⟨9, 9, 9, 255⟩, ⟨0, 0, 0, 0⟩]] j} col_end) :=
  ⟨by decide, by decide,
    claim_C5 [[⟨0, 0, 0, 0⟩, ⟨0, 0, 0, 0⟩], [⟨9, 9, 9, 255⟩, ⟨0, 0, 0, 0⟩]] 2
      (by decide) (by decide)⟩

/-- C6: trimming is idempotent — for every rectangular grid with at least one
visible pixel, cropping the cropped grid returns the cropped grid unchanged
(`trim (trim g) = trim g`, with the second crop composed through
`Option.bind`). -/
theorem claim_C6 (g : PixelGrid) (w : Nat) (hrect : Rect g w) (hvis : HasVisible g) :
    (crop_to_content g).bind crop_to_content = crop_to_content g := by
  obtain ⟨g', heq, hidem⟩ := crop_idem_some hrect hvis
  rw [heq]
  simpa using hidem

/-- Witness for C6 at a 2×3 grid with visible pixels at (0,1) and (1,2). -/
theorem claim_C6_witness :
    Rect [[⟨0, 0, 0, 0⟩, ⟨1, 1, 1, 9⟩, ⟨0, 0, 0, 0⟩],
        [⟨0, 0, 0, 0⟩, ⟨0, 0, 0, 0⟩, ⟨2, 2, 2, 7⟩]] 3 ∧
      HasVisible [[⟨0, 0, 0, 0⟩, ⟨1, 1, 1, 9⟩, ⟨0, 0, 0, 0⟩],
        [⟨0, 0, 0, 0⟩, ⟨0, 0, 0, 0⟩, ⟨2, 2, 2, 7⟩]] ∧
      (crop_to_content [[⟨0, 0, 0, 0⟩, ⟨1, 1, 1, 9⟩, ⟨0, 0, 0, 0⟩],
          [⟨0, 0, 0, 0⟩, ⟨0, 0, 0, 0⟩, ⟨2, 2, 2, 7⟩]]).bind crop_to_content =
        crop_to_content [[⟨0, 0, 0, 0⟩, ⟨1, 1, 1, 9⟩, ⟨0, 0, 0, 0⟩],
          [⟨0, 0, 0, 0⟩, ⟨0, 0, 0, 0⟩, ⟨2, 2, 2, 7⟩]] :=
  ⟨by decide, by decide,
    claim_C6 [[⟨0, 0, 0, 0⟩, ⟨1, 1, 1, 9⟩, ⟨0, 0, 0, 0⟩],
      [⟨0, 0, 0, 0⟩, ⟨0, 0, 0, 0⟩, ⟨2, 2, 2, 7⟩]] 3 (by decide) (by decide)⟩

/-- C7: for every rectangular grid with at least one visible pixel, the
trimmer succeeds and each of the four borders of the result — first row, last
row, first column, last column — contains at least one pixel with non-zero
alpha. -/
theorem claim_C7 (g : PixelGrid) (w : Nat) (hrect : Rect g w) (hvis : HasVisible g) :
    ∃ g', crop_to_content g = some g' ∧
      RowVis g' 0 ∧ RowVis g' (g'.length - 1) ∧
      ColVis g' 0 ∧ ColVis g' (gridWidth g' - 1) := by
  obtain ⟨g', heq, -, -, -, hr0, hrl, hc0, hcl⟩ := crop_tight hrect hvis
  exact ⟨g', heq, hr0, hrl, hc0, hcl⟩

/-- Witness for C7 at a 3×3 grid with visible pixels at (0,2) and (2,0). -/
theorem claim_C7_witness :
    Rect [[⟨0, 0, 0, 0⟩, ⟨0, 0, 0, 0⟩, ⟨4, 4, 4, 1⟩],
        [⟨0, 0, 0, 0⟩, ⟨0, 0, 0, 0⟩, ⟨0, 0, 0, 0⟩],
        [⟨8, 8, 8, 2⟩, ⟨0, 0, 0, 0⟩, ⟨0, 0, 0, 0⟩]] 3 ∧
      HasVisible [[⟨0, 0, 0, 0⟩, ⟨0, 0, 0, 0⟩, ⟨4, 4, 4, 1⟩],
        [⟨0, 0, 0, 0⟩, ⟨0, 0, 0, 0⟩, ⟨0, 0, 0, 0⟩],
        [⟨8, 8, 8, 2⟩, ⟨0, 0, 0, 0⟩, ⟨0, 0, 0, 0⟩]] ∧
      (∃ g', crop_to_content [[⟨0, 0, 0, 0⟩, ⟨0, 0, 0, 0⟩, ⟨4, 4, 4, 1⟩],
          [⟨0, 0, 0, 0⟩, ⟨0, 0, 0, 0⟩, ⟨0, 0, 0, 0⟩],
          [⟨8, 8, 8, 2⟩, ⟨0, 0, 0, 0⟩, ⟨0, 0, 0, 0⟩]] = some g' ∧
        RowVis g' 0 ∧ RowVis g' (g'.length - 1) ∧
        ColVis g' 0 ∧ ColVis g' (gridWidth g' - 1)) :=
  ⟨by decide, by decide,
    claim_C7 [[⟨0, 0, 0, 0⟩, ⟨0, 0, 0, 0⟩, ⟨4, 4, 4, 1⟩],
      [⟨0, 0, 0, 0⟩, ⟨0, 0, 0, 0⟩, ⟨0, 0, 0, 0⟩],
      [⟨8, 8, 8, 2⟩, ⟨0, 0, 0, 0⟩, ⟨0, 0, 0, 0⟩]] 3 (by decide) (by decide)⟩

/-- The list of strings accumulated by the encoder loop (the source's
`string_representation` right before `"".flatten`): one `next_char` per pixel in
row-major order, a newline after each row, and the final reset code. -/
def encTokens (color_array : PixelGrid) : List String :=
  (color_array.map (fun row => row.map next_char ++ ["\n"])).flatten ++
    [get_ansi_reset_style_code]

lemma foldl_push {α β : Type} (f : α → β) (l : List α) (acc : List β) :
    l.foldl (fun acc2 x => acc2 ++ [f x]) acc = acc ++ l.map f := by
  induction l generalizing acc with
  | nil => simp
  | cons x t ih => simp [ih]

lemma encoder_foldl (g : PixelGrid) (acc : List String) :
    g.foldl (fun acc1 row =>
        row.foldl (fun acc2 pixel => acc2 ++ [next_char pixel]) acc1 ++ ["\n"]) acc
      = acc ++ (g.map (fun row => row.map next_char ++ ["\n"])).flatten := by
  induction g generalizing acc with
  | nil => simp
  | cons row t ih =>
      simp only [List.foldl_cons, List.map_cons, List.flatten_cons]
      rw [foldl_push, ih]
      simp [List.append_assoc]

lemma data_foldl_append (t : List String) :
    ∀ acc : String,
      (t.foldl (· ++ ·) acc).data = acc.data ++ (t.map String.data).flatten := by
  induction t with
  | nil => intro acc; simp
  | cons a t ih =>
      intro acc
      rw [List.foldl_cons, ih]
      simp [String.data_append]

lemma data_join (l : List String) :
    (String.join l).data = (l.map String.data).flatten := by
  show (l.foldl (· ++ ·) "").data = _
  rw [data_foldl_append]
  rfl

/-- The encoder output is the concatenation of its token list. -/
lemma convert_data (g : PixelGrid) :
    (convert_2D_color_array_to_truecolor_string g).data =
      ((encTokens g).map String.data).flatten := by
  show (String.join (g.foldl _ []) ++ get_ansi_reset_style_code).data = _
  rw [encoder_foldl]
  simp only [List.nil_append, encTokens]
  rw [String.data_append, data_join]
  simp

/-- `pat` is a prefix of `s`, character by character. -/
def leadsWith : List Char → List Char → Bool
  | [], _ => true
  | _ :: _, [] => false
  | p :: ps, c :: cs => p == c && leadsWith ps cs

/-- The number of positions of `s` at which the pattern `pat` occurs. -/
def countSub (pat : List Char) : List Char → Nat
  | [] => 0
  | c :: cs => (if leadsWith pat (c :: cs) then 1 else 0) + countSub pat cs

/-- The pattern mismatches `u` before `u` runs out, so no occurrence of the
pattern can start at `u`, whatever text follows it. -/
def blockedAt (pat u : List Char) : Bool := !(leadsWith (pat.take u.length) u)

/-- Every nonempty suffix of `t` either still has a full pattern length of
characters available or mismatches the pattern inside `t`: occurrences of the
pattern in `t ++ rest` never straddle the boundary. -/
def noStraddle (pat : List Char) : List Char → Bool
  | [] => true
  | c :: cs =>
      (decide (pat.length ≤ (c :: cs).length) || blockedAt pat (c :: cs)) &&
        noStraddle pat cs

lemma leadsWith_append_of_le {pat u : List Char} (h : pat.length ≤ u.length)
    (v : List Char) : leadsWith pat (u ++ v) = leadsWith pat u := by
  induction pat generalizing u with
  | nil => simp [leadsWith]
  | cons p ps ih =>
      cases u with
      | nil => simp at h
      | cons c cs =>
          simp only [List.cons_append, leadsWith, List.append_eq]
          rw [ih (by simpa using h)]

lemma leadsWith_take_of_append {pat : List Char} :
    ∀ {u : List Char}, ∀ v, leadsWith pat (u ++ v) = true →
      leadsWith (pat.take u.length) u = true := by
  induction pat with
  | nil => intro u v _; simp [leadsWith]
  | cons p ps ih =>
      intro u v h
      cases u with
      | nil => simp [leadsWith]
      | cons c cs =>
          simp only [List.cons_append, leadsWith, Bool.and_eq_true,
            List.append_eq] at h
          simp only [List.length_cons, List.take_succ_cons, leadsWith,
            Bool.and_eq_true]
          exact ⟨h.1, ih v h.2⟩

lemma not_leadsWith_of_blockedAt {pat u : List Char} (h : blockedAt pat u = true)
    (v : List Char) : leadsWith pat (u ++ v) = false := by
  cases heq : leadsWith pat (u ++ v) with
  | false => rfl
  | true =>
      exfalso
      have h1 := leadsWith_take_of_append v heq
      rw [blockedAt, h1] at h
      simp at h

lemma not_leadsWith_of_blockedAt_nil {pat u : List Char}
    (h : blockedAt pat u = true) : leadsWith pat u = false := by
  have := not_leadsWith_of_blockedAt h []
  rwa [List.append_nil] at this

lemma countSub_append {pat : List Char} :
    ∀ a : List Char, noStraddle pat a = true →
      ∀ b, countSub pat (a ++ b) = countSub pat a + countSub pat b := by
  intro a
  induction a with
  | nil => intro _ b; simp [countSub]
  | cons c cs ih =>
      intro hns b
      simp only [noStraddle, Bool.and_eq_true, Bool.or_eq_true] at hns
      obtain ⟨hsafe, hrest⟩ := hns
      simp only [List.cons_append, countSub, List.append_eq]
      have hhead : leadsWith pat (c :: (cs ++ b)) = leadsWith pat (c :: cs) := by
        have hcc : c :: (cs ++ b) = (c :: cs) ++ b := rfl
        rw [hcc]
        rcases hsafe with hle | hblk
        · exact leadsWith_append_of_le (of_decide_eq_true hle) b
        · rw [not_leadsWith_of_blockedAt hblk b,
            not_leadsWith_of_blockedAt_nil hblk]
      simp only [hhead, ih hrest b]
      omega

lemma countSub_join {pat : List Char} :
    ∀ ts : List (List Char), (∀ t ∈ ts, noStraddle pat t = true) →
      countSub pat ts.flatten = (ts.map (countSub pat)).sum := by
  intro ts
  induction ts with
  | nil => intro _; simp [countSub]
  | cons t ts ih =>
      intro h
      simp only [List.flatten_cons, List.map_cons, List.sum_cons]
      rw [countSub_append t (h t (List.mem_cons_self _ _)) ts.flatten,
        ih (fun u hu => h u (List.mem_cons_of_mem _ hu))]

/-- The byte prefix every emitted (background) color-control code starts
with: `ESC[48;2;`. -/
def colorPat : List Char := "\x1b[48;2;".data

/-- The reset code `ESC[0m` as characters. -/
def resetPat : List Char := "\x1b[0m".data

/-- The two-character glyph as characters. -/
def glyphPat : List Char := "  ".data

/-- Number of (background) color-control codes occurring in a string. -/
def countColorCodes (s : String) : Nat := countSub colorPat s.data

/-- Number of reset codes occurring in a string. -/
def countResetCodes (s : String) : Nat := countSub resetPat s.data

/-- Number of two-character glyphs occurring in a string. -/
def countGlyphs (s : String) : Nat := countSub glyphPat s.data

lemma encTokens_mem {g : PixelGrid} {t : String} (ht : t ∈ encTokens g) :
    (∃ row ∈ g, ∃ p ∈ row, t = next_char p) ∨ t = "\n" ∨
      t = get_ansi_reset_style_code := by
  unfold encTokens at ht
  rcases List.mem_append.mp ht with h | h
  · obtain ⟨l, hl, hmem⟩ := List.mem_flatten.mp h
    obtain ⟨row, hrow, rfl⟩ := List.mem_map.mp hl
    rcases List.mem_append.mp hmem with h2 | h2
    · obtain ⟨p, hp, rfl⟩ := List.mem_map.mp h2
      exact Or.inl ⟨row, hrow, p, hp, rfl⟩
    · simp only [List.mem_singleton] at h2
      exact Or.inr (Or.inl h2)
  · simp only [List.mem_singleton] at h
    exact Or.inr (Or.inr h)

lemma join_replicate_singleton {α : Type} (n : Nat) (x : α) :
    (List.replicate n [x]).flatten = List.replicate n x := by
  induction n with
  | zero => rfl
  | succ k ih => simp [List.replicate_succ, ih]

lemma join_replicate_glyph (n : Nat) :
    (List.replicate n ("  " : String).data).flatten = List.replicate (2 * n) ' ' := by
  induction n with
  | zero => rfl
  | succ k ih =>
      have h2 : ("  " : String).data = [' ', ' '] := rfl
      rw [List.replicate_succ, List.flatten_cons, ih, h2]
      have h3 : 2 * (k + 1) = 2 * k + 1 + 1 := by ring
      rw [h3, List.replicate_succ, List.replicate_succ]
      rfl

/-- C10: for every nonempty grid of width 0 (numpy shape `(h, 0, 4)` with
`h ≥ 1`), the encoder does not fail and returns exactly `h` newline
characters followed by the single reset code. -/
theorem claim_C10 (g : PixelGrid) (hrect : Rect g 0) (hpos : 1 ≤ g.length) :
    (convert_2D_color_array_to_truecolor_string g).data =
      List.replicate g.length '\n' ++ "\x1b[0m".data := by
  rw [convert_data]
  unfold encTokens
  have hrows : ∀ row ∈ g,
      (fun row => row.map next_char ++ ["\n"]) row = (fun _ => ["\n"]) row := by
    intro row hrow
    have : row = [] := List.length_eq_zero.mp (hrect row hrow)
    simp [this]
  rw [List.map_congr_left hrows]
  have hconst : g.map (fun _ => (["\n"] : List String)) =
      List.replicate g.length ["\n"] := List.map_const' g ["\n"]
  rw [hconst, join_replicate_singleton]
  simp only [List.map_append, List.map_replicate, List.map_cons, List.map_nil,
    List.flatten_append]
  rw [join_replicate_singleton]
  simp [get_ansi_reset_style_code]

/-- Witness for C10 at the 2×0 grid. -/
theorem claim_C10_witness :
    Rect [[], []] 0 ∧ 1 ≤ ([[], []] : PixelGrid).length ∧
      (convert_2D_color_array_to_truecolor_string [[], []]).data =
        List.replicate ([[], []] : PixelGrid).length '\n' ++ "\x1b[0m".data :=
  ⟨by decide, by decide, claim_C10 [[], []] (by decide) (by decide)⟩

/-- C8: for every grid in which every pixel has alpha 0, the encoder does not
fail and its output consists of exactly `2·width` spaces (the glyphs) plus a
newline per row and the single trailing reset code, with zero color-control
codes. -/
theorem claim_C8 (g : PixelGrid) (hinv : ∀ row ∈ g, ∀ p ∈ row, p.a = 0) :
    (convert_2D_color_array_to_truecolor_string g).data =
      (g.map (fun row => List.replicate (2 * row.length) ' ' ++ ['\n'])).flatten ++
        "\x1b[0m".data ∧
    countColorCodes (convert_2D_color_array_to_truecolor_string g) = 0 := by
  have hnc : ∀ row ∈ g, ∀ p ∈ row, next_char p = invisible_pixel_char := by
    intro row hrow p hp
    unfold next_char
    rw [if_neg]
    simp [hinv row hrow p hp]
  constructor
  · rw [convert_data]
    unfold encTokens
    simp only [List.map_append, List.flatten_append]
    have hM : ∀ g' : PixelGrid, (∀ row ∈ g', ∀ p ∈ row, next_char p = invisible_pixel_char) →
        ((g'.map (fun row => row.map next_char ++ ["\n"])).flatten.map String.data).flatten
          = (g'.map (fun row => List.replicate (2 * row.length) ' ' ++ ['\n'])).flatten := by
      intro g'
      induction g' with
      | nil => intro _; rfl
      | cons row t ih =>
          intro h
          simp only [List.map_cons, List.flatten_cons, List.map_append,
            List.flatten_append]
          rw [ih (fun r hr => h r (List.mem_cons_of_mem _ hr))]
          congr 1
          have hrowc : row.map next_char =
              List.replicate row.length invisible_pixel_char := by
            rw [List.map_congr_left
              (fun p hp => h row (List.mem_cons_self _ _) p hp)]
            exact List.map_const' row invisible_pixel_char
          rw [hrowc]
          simp only [List.map_replicate, List.map_cons, List.map_nil,
            List.flatten_append, List.flatten_cons]
          have hglyph : (invisible_pixel_char).data = ("  " : String).data := rfl
          rw [hglyph, join_replicate_glyph]
          have hnl : ("\n" : String).data = ['\n'] := rfl
          simp [hnl]
    rw [hM g hnc]
    have hrst : (get_ansi_reset_style_code).data = "\x1b[0m".data := rfl
    simp [hrst]
  · unfold countColorCodes
    rw [convert_data]
    have hts : ∀ t ∈ (encTokens g).map String.data,
        noStraddle colorPat t = true := by
      intro t ht
      obtain ⟨t', ht', rfl⟩ := List.mem_map.mp ht
      rcases encTokens_mem ht' with ⟨row, hrow, p, hp, rfl⟩ | rfl | rfl
      · rw [hnc row hrow p hp]; decide
      · decide
      · decide
    rw [countSub_join _ hts]
    apply List.sum_eq_zero
    intro x hx
    obtain ⟨t, ht, rfl⟩ := List.mem_map.mp hx
    obtain ⟨t', ht', rfl⟩ := List.mem_map.mp ht
    rcases encTokens_mem ht' with ⟨row, hrow, p, hp, rfl⟩ | rfl | rfl
    · rw [hnc row hrow p hp]; decide
    · decide
    · decide

/-- Witness for C8 at a 2×2 all-transparent grid. -/
theorem claim_C8_witness :
    (∀ row ∈ ([[⟨3, 4, 5, 0⟩, ⟨6, 7, 8, 0⟩], [⟨9, 9, 9, 0⟩, ⟨1, 1, 1, 0⟩]] : PixelGrid),
      ∀ p ∈ row, p.a = 0) ∧
    ((convert_2D_color_array_to_truecolor_string
        [[⟨3, 4, 5, 0⟩, ⟨6, 7, 8, 0⟩], [⟨9, 9, 9, 0⟩, ⟨1, 1, 1, 0⟩]]).data =
      (([[⟨3, 4, 5, 0⟩, ⟨6, 7, 8, 0⟩], [⟨9, 9, 9, 0⟩, ⟨1, 1, 1, 0⟩]] : PixelGrid).map
        (fun row => List.replicate (2 * row.length) ' ' ++ ['\n'])).flatten ++
        "\x1b[0m".data ∧
      countColorCodes (convert_2D_color_array_to_truecolor_string
        [[⟨3, 4, 5, 0⟩, ⟨6, 7, 8, 0⟩], [⟨9, 9, 9, 0⟩, ⟨1, 1, 1, 0⟩]]) = 0) :=
  ⟨by decide,
    claim_C8 [[⟨3, 4, 5, 0⟩, ⟨6, 7, 8, 0⟩], [⟨9, 9, 9, 0⟩, ⟨1, 1, 1, 0⟩]]
      (by decide)⟩

/-- The concrete per-pixel string the encoder emits for every visible pixel
of color `(10, 20, 30)`. -/
def uniformCell : String := "\x1b[48;2;10;20;30m  \x1b[0m"

/-- C1 counterexample: for the single-row grid of two visible pixels of the
one color `(10, 20, 30)`, the encoded output does not contain exactly one
color-control code, two glyphs, and exactly one reset code (the code emits a
color code and a reset per visible pixel, with no run-length collapsing). -/
theorem claim_C1_counterexample :
    ¬ (countColorCodes (convert_2D_color_array_to_truecolor_string
          [[⟨10, 20, 30, 255⟩, ⟨10, 20, 30, 255⟩]]) = 1 ∧
        countGlyphs (convert_2D_color_array_to_truecolor_string
          [[⟨10, 20, 30, 255⟩, ⟨10, 20, 30, 255⟩]]) = 2 ∧
        countResetCodes (convert_2D_color_array_to_truecolor_string
          [[⟨10, 20, 30, 255⟩, ⟨10, 20, 30, 255⟩]]) = 1) := by
  decide

/-- C1 (amended): for every single-row grid in which every pixel is visible
(non-zero alpha) with the one color `(10, 20, 30)`, the encoded output
contains exactly `width` color-control codes (one per pixel — there is no
run-length collapsing), exactly `width` copies of the two-character glyph,
and `width + 1` reset codes (one after each visible pixel plus the single
trailing one). -/
theorem claim_C1 (row : List Pixel)
    (hvis : ∀ p ∈ row, p.a ≠ 0 ∧ p.r = 10 ∧ p.g = 20 ∧ p.b = 30) :
    countColorCodes (convert_2D_color_array_to_truecolor_string [row]) =
      row.length ∧
    countGlyphs (convert_2D_color_array_to_truecolor_string [row]) =
      row.length ∧
    countResetCodes (convert_2D_color_array_to_truecolor_string [row]) =
      row.length + 1 := by
  have hnc : ∀ p ∈ row, next_char p = uniformCell := by
    intro p hp
    obtain ⟨ha, hr, hg, hb⟩ := hvis p hp
    unfold next_char
    rw [if_pos ha, hr, hg, hb]
    rfl
  have htok : encTokens [row] =
      row.map next_char ++ ["\n", get_ansi_reset_style_code] := by
    simp [encTokens]
  have key : ∀ (pat : List Char) (cCell cNl cReset : Nat),
      countSub pat uniformCell.data = cCell →
      countSub pat ("\n" : String).data = cNl →
      countSub pat (get_ansi_reset_style_code).data = cReset →
      noStraddle pat uniformCell.data = true →
      noStraddle pat ("\n" : String).data = true →
      noStraddle pat (get_ansi_reset_style_code).data = true →
      countSub pat
          (((encTokens [row]).map String.data)).flatten =
        row.length * cCell + cNl + cReset := by
    intro pat cCell cNl cReset h1 h2 h3 hs1 hs2 hs3
    have hts : ∀ t ∈ (encTokens [row]).map String.data,
        noStraddle pat t = true := by
      intro t ht
      obtain ⟨t', ht', rfl⟩ := List.mem_map.mp ht
      rcases encTokens_mem ht' with ⟨r2, hr2, p, hp, rfl⟩ | rfl | rfl
      · simp only [List.mem_singleton] at hr2
        subst hr2
        rw [hnc p hp]
        exact hs1
      · exact hs2
      · exact hs3
    rw [countSub_join _ hts, htok]
    simp only [List.map_append, List.map_cons, List.map_nil, List.map_map,
      List.sum_append, List.sum_cons, List.sum_nil]
    have hrow : row.map (countSub pat ∘ String.data ∘ next_char) =
        List.replicate row.length cCell := by
      rw [List.map_congr_left (fun p hp => by
        show countSub pat (next_char p).data = cCell
        rw [hnc p hp, h1])]
      exact List.map_const' row cCell
    rw [hrow, h2, h3, List.sum_replicate, smul_eq_mul]
    ring
  refine ⟨?_, ?_, ?_⟩
  · unfold countColorCodes
    rw [convert_data, key colorPat 1 0 0 (by decide) (by decide) (by decide)
      (by decide) (by decide) (by decide)]
    ring
  · unfold countGlyphs
    rw [convert_data, key glyphPat 1 0 0 (by decide) (by decide) (by decide)
      (by decide) (by decide) (by decide)]
    ring
  · unfold countResetCodes
    rw [convert_data, key resetPat 1 0 1 (by decide) (by decide) (by decide)
      (by decide) (by decide) (by decide)]
    ring

/-- Witness for C1 at the single-row grid of three visible `(10, 20, 30)`
pixels. -/
theorem claim_C1_witness :
    (∀ p ∈ [Pixel.mk 10 20 30 255, Pixel.mk 10 20 30 7, Pixel.mk 10 20 30 1],
      p.a ≠ 0 ∧ p.r = 10 ∧ p.g = 20 ∧ p.b = 30) ∧
    (countColorCodes (convert_2D_color_array_to_truecolor_string
        [[Pixel.mk 10 20 30 255, Pixel.mk 10 20 30 7, Pixel.mk 10 20 30 1]]) = 3 ∧
      countGlyphs (convert_2D_color_array_to_truecolor_string
        [[Pixel.mk 10 20 30 255, Pixel.mk 10 20 30 7, Pixel.mk 10 20 30 1]]) = 3 ∧
      countResetCodes (convert_2D_color_array_to_truecolor_string
        [[Pixel.mk 10 20 30 255, Pixel.mk 10 20 30 7, Pixel.mk 10 20 30 1]]) = 4) :=
  ⟨by decide,
    claim_C1 [Pixel.mk 10 20 30 255, Pixel.mk 10 20 30 7, Pixel.mk 10 20 30 1]
      (by decide)⟩

/-- The characters a visible pixel of color `(r, g, b)` contributes to the
output: background color code, glyph, reset code. -/
def cellData (r g b : Nat) : List Char :=
  (get_ansi_color_code r g b true ++ visible_pixel_char ++
    get_ansi_reset_style_code).data

/-- No occurrence of `pat` can start anywhere in `t`, whatever follows. -/
def AllBlocked (pat t : List Char) : Prop :=
  ∀ i < t.length, blockedAt pat (t.drop i) = true

instance (pat t : List Char) : Decidable (AllBlocked pat t) := by
  unfold AllBlocked; infer_instance

lemma leadsWith_prefix_append : ∀ u v : List Char, leadsWith u (u ++ v) = true := by
  intro u
  induction u with
  | nil => intro v; rfl
  | cons c cs ih => intro v; simp [leadsWith, ih]

lemma allBlocked_cons {pat : List Char} {c : Char} {l : List Char} :
    AllBlocked pat (c :: l) ↔ blockedAt pat (c :: l) = true ∧ AllBlocked pat l := by
  constructor
  · intro h
    refine ⟨h 0 (by simp), ?_⟩
    intro i hi
    have := h (i + 1) (by simpa using hi)
    simpa using this
  · rintro ⟨h0, h⟩ i hi
    cases i with
    | zero => simpa using h0
    | succ i =>
        simp only [List.drop_succ_cons]
        exact h i (by simpa using hi)

lemma blockedAt_cons_of_ne {c : Char} (l : List Char) (h : c ≠ '\x1b') :
    blockedAt colorPat (c :: l) = true := by
  have hpat : colorPat = '\x1b' :: "[48;2;".data := rfl
  rw [blockedAt, hpat]
  simp only [List.length_cons, List.take_succ_cons, leadsWith]
  simp [Ne.symm h]

lemma allBlocked_append {a b : List Char} (ha : ∀ c ∈ a, c ≠ '\x1b')
    (hb : AllBlocked colorPat b) : AllBlocked colorPat (a ++ b) := by
  induction a with
  | nil => simpa using hb
  | cons c cs ih =>
      rw [List.cons_append, allBlocked_cons]
      refine ⟨blockedAt_cons_of_ne _ (ha c (List.mem_cons_self _ _)), ?_⟩
      exact ih (fun d hd => ha d (List.mem_cons_of_mem _ hd))

set_option maxRecDepth 8192 in
lemma toString_fin_no_esc :
    ∀ n : Fin 256, ((toString n.val).data.all (fun c => c != '\x1b')) = true := by
  decide

lemma toString_no_esc {n : Nat} (h : n ≤ 255) :
    ∀ c ∈ (toString n).data, c ≠ '\x1b' := by
  intro c hc
  have := toString_fin_no_esc ⟨n, by omega⟩
  rw [List.all_eq_true] at this
  simpa using this c hc

lemma cellData_eq (r g b : Nat) :
    cellData r g b =
      '\x1b' :: ((['[', '4', '8', ';', '2', ';'] ++ (toString r).data ++ [';'] ++
        (toString g).data ++ [';'] ++ (toString b).data ++ ['m', ' ', ' ']) ++
        ['\x1b', '[', '0', 'm']) := by
  unfold cellData get_ansi_color_code visible_pixel_char get_ansi_reset_style_code
  simp only [if_pos, String.data_append]
  rw [show (toString (48 : Nat)).data = ['4', '8'] from rfl]
  simp [List.append_assoc]

lemma cellData_tail_blocked {r g b : Nat} (hr : r ≤ 255) (hg : g ≤ 255)
    (hb : b ≤ 255) :
    AllBlocked colorPat
      ((['[', '4', '8', ';', '2', ';'] ++ (toString r).data ++ [';'] ++
        (toString g).data ++ [';'] ++ (toString b).data ++ ['m', ' ', ' ']) ++
        ['\x1b', '[', '0', 'm']) := by
  apply allBlocked_append
  · intro c hc
    simp only [List.append_assoc, List.mem_append] at hc
    rcases hc with h | h | h | h | h | h | h
    · fin_cases h <;> decide
    · exact toString_no_esc hr c h
    · fin_cases h <;> decide
    · exact toString_no_esc hg c h
    · fin_cases h <;> decide
    · exact toString_no_esc hb c h
    · fin_cases h <;> decide
  · decide

lemma cellData_length_pos (r g b : Nat) : 0 < (cellData r g b).length := by
  rw [cellData_eq]
  simp

/-- Occurrences of the color-code prefix in a concatenation of safe tokens
start only at the head of a visible-pixel cell, which the full cell string
then follows. -/
lemma colorPat_followed {ts : List (List Char)}
    (h : ∀ t ∈ ts, AllBlocked colorPat t ∨
      ∃ r g b, r ≤ 255 ∧ g ≤ 255 ∧ b ≤ 255 ∧ t = cellData r g b) :
    ∀ i, leadsWith colorPat (ts.flatten.drop i) = true →
      ∃ r g b, r ≤ 255 ∧ g ≤ 255 ∧ b ≤ 255 ∧
        leadsWith (cellData r g b) (ts.flatten.drop i) = true := by
  induction ts with
  | nil =>
      intro i hi
      rw [List.flatten_nil, List.drop_nil] at hi
      exact absurd hi (by decide)
  | cons t ts ih =>
      intro i hi
      simp only [List.flatten_cons] at hi ⊢
      by_cases hlt : i < t.length
      · have hdrop : (t ++ ts.flatten).drop i = t.drop i ++ ts.flatten :=
          List.drop_append_of_le_length (by omega)
        rcases h t (List.mem_cons_self _ _) with hab |
          ⟨r, g, b, hr, hg, hb, rfl⟩
        · exfalso
          rw [hdrop, not_leadsWith_of_blockedAt (hab i hlt) ts.flatten] at hi
          exact Bool.noConfusion hi
        · rcases Nat.eq_zero_or_pos i with rfl | hpos
          · refine ⟨r, g, b, hr, hg, hb, ?_⟩
            rw [List.drop_zero]
            exact leadsWith_prefix_append _ _
          · exfalso
            obtain ⟨i', rfl⟩ : ∃ i', i = i' + 1 := ⟨i - 1, by omega⟩
            rw [hdrop] at hi
            rw [cellData_eq] at hi hlt
            rw [List.drop_succ_cons] at hi
            have hblk := cellData_tail_blocked hr hg hb
            have hlen : i' < ((['[', '4', '8', ';', '2', ';'] ++
                (toString r).data ++ [';'] ++ (toString g).data ++ [';'] ++
                (toString b).data ++ ['m', ' ', ' ']) ++
                ['\x1b', '[', '0', 'm']).length := by
              simp only [List.length_cons] at hlt
              omega
            rw [not_leadsWith_of_blockedAt (hblk i' hlen) ts.flatten] at hi
            exact Bool.noConfusion hi
      · have hdrop : (t ++ ts.flatten).drop i = ts.flatten.drop (i - t.length) := by
          have h2 : (t ++ ts.flatten).drop (t.length + (i - t.length)) =
              ts.flatten.drop (i - t.length) := List.drop_append _
          rw [show t.length + (i - t.length) = i from by omega] at h2
          exact h2
        rw [hdrop] at hi ⊢
        exact ih (fun u hu => h u (List.mem_cons_of_mem _ hu)) (i - t.length) hi

/-- C9: in every encoder output (channels 8-bit), wherever a color-control
code occurs, it is the start of exactly one visible pixel cell: the color
code, then the two-space glyph, then the reset code — so color state never
extends past a single pixel cell, in particular not across an invisible gap. -/
theorem claim_C9 (g : PixelGrid)
    (hchan : ∀ row ∈ g, ∀ p ∈ row, p.r ≤ 255 ∧ p.g ≤ 255 ∧ p.b ≤ 255)
    (i : Nat)
    (hcode : leadsWith colorPat
      ((convert_2D_color_array_to_truecolor_string g).data.drop i) = true) :
    ∃ r gr b, r ≤ 255 ∧ gr ≤ 255 ∧ b ≤ 255 ∧
      leadsWith ((get_ansi_color_code r gr b true ++ visible_pixel_char ++
          get_ansi_reset_style_code).data)
        ((convert_2D_color_array_to_truecolor_string g).data.drop i) = true := by
  rw [convert_data] at hcode ⊢
  refine colorPat_followed ?_ i hcode
  intro t ht
  obtain ⟨t', ht', rfl⟩ := List.mem_map.mp ht
  rcases encTokens_mem ht' with ⟨row, hrow, p, hp, rfl⟩ | rfl | rfl
  · by_cases ha : p.a ≠ 0
    · right
      obtain ⟨hr, hg, hb⟩ := hchan row hrow p hp
      refine ⟨p.r, p.g, p.b, hr, hg, hb, ?_⟩
      unfold next_char cellData
      rw [if_pos ha]
    · left
      have hn : next_char p = invisible_pixel_char := by
        unfold next_char
        rw [if_neg ha]
      rw [hn]
      decide
  · left; decide
  · left; decide

/-- Witness for C9 at the opaque-red 1×1 grid and offset 0. -/
theorem claim_C9_witness :
    (∀ row ∈ ([[⟨255, 0, 0, 255⟩]] : PixelGrid), ∀ p ∈ row,
      p.r ≤ 255 ∧ p.g ≤ 255 ∧ p.b ≤ 255) ∧
    leadsWith colorPat
      ((convert_2D_color_array_to_truecolor_string [[⟨255, 0, 0, 255⟩]]).data.drop 0)
      = true ∧
    (∃ r gr b, r ≤ 255 ∧ gr ≤ 255 ∧ b ≤ 255 ∧
      leadsWith ((get_ansi_color_code r gr b true ++ visible_pixel_char ++
          get_ansi_reset_style_code).data)
        ((convert_2D_color_array_to_truecolor_string
          [[⟨255, 0, 0, 255⟩]]).data.drop 0) = true) :=
  ⟨by decide, by decide, claim_C9 [[⟨255, 0, 0, 255⟩]] (by decide) 0 (by decide)⟩

/-- C2: Encoding the 1×1 grid whose single pixel is `(255, 0, 0, 255)` returns
exactly the string `"\x1b[48;2;255;0;0m  \x1b[0m"` followed by a newline and
then the final reset code `"\x1b[0m"`. -/
theorem claim_C2 :
    convert_2D_color_array_to_truecolor_string [[⟨255, 0, 0, 255⟩]] =
      "\x1b[48;2;255;0;0m  \x1b[0m\n\x1b[0m" := by
  rfl

/-- C3 counterexample: the encoder applied to the empty grid (height 0) does
not return the empty string. -/
theorem claim_C3_counterexample :
    convert_2D_color_array_to_truecolor_string [] ≠ "" := by
  decide

/-- C3 (amended): for the empty grid (height 0) the encoder does not fail and
returns exactly the reset code `"\x1b[0m"` (not the empty string: the final
reset is appended even when no row is processed). -/
theorem claim_C3 :
    convert_2D_color_array_to_truecolor_string [] = "\x1b[0m" := by
  rfl
